import Mathlib

/-!
Verification development for the SDK comparison component
(SDKComparison.tsx, simple and enhanced variants).

The definitions below are shallow embeddings of the TypeScript source:
JavaScript strings become String, JavaScript numbers holding line counts
become Int, optional fields become Option Int, the falsy-or operator on
numbers is modelled by orNum (0 and undefined are falsy), JavaScript Map
built from an association list with last-write-wins duplicate handling is
modelled by reverse lookup over the association list, and the stable
Array.prototype.sort is modelled by a stable insertion sort with the comparator
turned into a boolean less-or-equal test.
-/

namespace SDKComp

/-! ## Data model (interfaces Method, Class, SDKData) -/

/-- Embedding of the Method interface of the component. -/
structure Method where
  name : String
  kind : String
  parameters : List (String × String)
  returns : Option String
  isAsync : Option Bool
  decorators : List String
  line : Option Int
  startLine : Option Int
  endLine : Option Int
deriving DecidableEq, Repr

/-- Embedding of the Class interface of the component. -/
structure Class where
  name : String
  file : String
  methods : List Method
  abstractFlag : Option Bool
  parent : Option String
  interfaces : List String
  line : Option Int
  startLine : Option Int
  endLine : Option Int
deriving DecidableEq, Repr

/-- Embedding of the SDKData interface: the ordered class list of one SDK. -/
structure SDKData where
  classes : List Class
deriving DecidableEq, Repr

/-- Helper building a Method carrying only a name, all optional data absent. -/
def mMeth (n : String) : Method :=
  { name := n, kind := "method", parameters := [], returns := none,
    isAsync := none, decorators := [], line := none, startLine := none,
    endLine := none }

/-- Helper building a Method with a name and a start and end line. -/
def mMethL (n : String) (s e : Int) : Method :=
  { mMeth n with startLine := some s, endLine := some e }

/-- Helper building a Class from a name, a file path and a method list. -/
def mCls (n f : String) (ms : List Method) : Class :=
  { name := n, file := f, methods := ms, abstractFlag := none,
    parent := none, interfaces := [], line := none, startLine := none,
    endLine := none }

/-! ## JavaScript primitives used by the component -/

/-- Test whether a character lies in the ASCII range of the regex class
matching lowercase letters, code points 97 to 122. -/
def lowAz (c : Char) : Bool :=
  97 ≤ c.toNat && c.toNat ≤ 122

/-- Falsy-or on an optional number, as the JavaScript or-operator behaves on
numeric fields: undefined and 0 fall through to the default. -/
def orNum (a : Option Int) (d : Int) : Int :=
  match a with
  | some v => if v = 0 then d else v
  | none => d

/-- Test whether the first character list is a leading segment of the
second. -/
def strLead : List Char → List Char → Bool
  | [], _ => true
  | _ :: _, [] => false
  | a :: as, b :: bs => a = b && strLead as bs

/-- Containment test mirroring the includes method of JavaScript strings:
the needle occurs contiguously somewhere in the haystack. -/
def strHas (hay needle : String) : Bool :=
  (List.range (hay.data.length + 1)).any
    (fun i => strLead needle.data (hay.data.drop i))

/-- Lexicographic code-point order on character lists, the model used here
for the localeCompare comparator. -/
def charListLe : List Char → List Char → Bool
  | [], _ => true
  | _ :: _, [] => false
  | a :: as, b :: bs => if a = b then charListLe as bs else decide (a.toNat < b.toNat)

/-- Lexicographic code-point order on strings. -/
def strLe (a b : String) : Bool :=
  charListLe a.data b.data

/-- Character-wise lowercasing, the model used here for the toLowerCase
method of JavaScript strings: every uppercase ASCII letter is shifted to
its lowercase form. -/
def strToLower (s : String) : String :=
  ⟨s.data.map Char.toLower⟩

/-- Join of a string list under a separator, as the join method of
JavaScript arrays behaves. -/
def joinSep (sep : String) : List String → String
  | [] => ""
  | [a] => a
  | a :: rest => a ++ sep ++ joinSep sep rest

/-- Stable sort under a boolean comparator, the model used here for
Array.prototype.sort with a consistent comparator: a stable sort of a total
preorder is unique as a function, so insertion sort computes the same list
as the engine's stable sort. -/
def jsSort {α : Type} (le : α → α → Bool) (l : List α) : List α :=
  @List.insertionSort α (fun a b => le a b = true)
    (fun a b => instDecidableEqBool (le a b) true) l

theorem jsSort_perm {α : Type} (le : α → α → Bool) (l : List α) :
    (jsSort le l).Perm l :=
  List.perm_insertionSort _ l

theorem mem_jsSort {α : Type} {le : α → α → Bool} {l : List α} {a : α} :
    a ∈ jsSort le l ↔ a ∈ l :=
  List.mem_insertionSort _

theorem jsSort_pairwise {α : Type} {le : α → α → Bool}
    (htot : ∀ a b, le a b = true ∨ le b a = true)
    (htrans : ∀ a b c, le a b = true → le b c = true → le a c = true)
    (l : List α) :
    List.Pairwise (fun a b => le a b = true) (jsSort le l) :=
  @List.sorted_insertionSort α (fun a b => le a b = true)
    (fun a b => instDecidableEqBool (le a b) true) ⟨htot⟩ ⟨htrans⟩ l

/-- Lookup in a JavaScript Map built from an association list by repeated
set calls: on duplicate keys the last write wins, so the reversed list is
searched front to back. -/
def classLookup (classes : List Class) (n : String) : Option Class :=
  classes.reverse.find? (fun c => c.name = n)

/-- Accumulator pass of the deduplication below. -/
def jsSetAux (seen : List String) : List String → List String
  | [] => []
  | a :: rest =>
    if a ∈ seen then jsSetAux seen rest else a :: jsSetAux (a :: seen) rest

/-- Dedup keeping first occurrences, as iterating a JavaScript Set built
from a list does. -/
def jsSetList (l : List String) : List String :=
  jsSetAux [] l

/-! ## Identifier Normalizer (toCamelCase) -/

/-- Recursive core of the replacement performed by the regular expression
of toCamelCase: an underscore directly followed by a lowercase ASCII letter
is replaced by the uppercased letter, scanning resumes after the match;
any other underscore is kept and scanning resumes at the next character. -/
def camelRepl : List Char → List Char
  | [] => []
  | '_' :: c :: rest =>
    if lowAz c then Char.toUpper c :: camelRepl rest
    else '_' :: camelRepl (c :: rest)
  | c :: rest => c :: camelRepl rest

/-- Embedding of toCamelCase: replace every underscore followed by a
lowercase ASCII letter with the uppercased letter. -/
def toCamelCase (s : String) : String :=
  ⟨camelRepl s.data⟩

/-- Transformation described by the words of the specification, for
comparison: delete each underscore and uppercase the character immediately
following an underscore. The flag records whether the previous kept
character position was directly preceded by an underscore run. -/
def specCamelAux : Bool → List Char → List Char
  | _, [] => []
  | _, '_' :: rest => specCamelAux true rest
  | up, c :: rest => (if up then Char.toUpper c else c) :: specCamelAux false rest

/-- Specification-side camel casing: delete every underscore and uppercase
the character immediately following one. -/
def specCamelCase (s : String) : String :=
  ⟨specCamelAux false s.data⟩

/-! ## Cross-SDK Matcher (getMethodComparisonStatus) -/

/-- Embedding of getMethodComparisonStatus: with either class absent the
result is the missing status; otherwise the normalized query name is tested
for membership in the TypeScript name list without constructors and in the
camel-cased Python name list. -/
def getMethodComparisonStatus (methodName : String)
    (tsClass pythonClass : Option Class) (currentSdkName : String) : String :=
  match tsClass, pythonClass with
  | some tc, some pc =>
    let tsMethodNames :=
      (tc.methods.filter (fun m => m.name ≠ "constructor")).map Method.name
    let pythonMethodNamesCamelCase :=
      pc.methods.map (fun m => toCamelCase m.name)
    let normalizedCurrentMethod :=
      if currentSdkName = "python" then toCamelCase methodName else methodName
    let tsHasMethod := normalizedCurrentMethod ∈ tsMethodNames
    let pythonHasMethod := normalizedCurrentMethod ∈ pythonMethodNamesCamelCase
    if tsHasMethod ∧ pythonHasMethod then "both"
    else if tsHasMethod ∧ ¬ pythonHasMethod then "ts-only"
    else if ¬ tsHasMethod ∧ pythonHasMethod then "python-only"
    else "missing"
  | _, _ => "missing"

/-! ## Class/Method Indexer and Filter Engine (enhanced variant) -/

/-- User-facing class-level filter state of the component. -/
structure Filters where
  showCommon : Bool
  showTsOnly : Bool
  showPythonOnly : Bool
  hideEmptyClasses : Bool
  searchTerm : String
deriving DecidableEq, Repr

/-- Method count of an optionally present class, with the length of an
absent list read as zero. -/
def methodLen (oc : Option Class) : Nat :=
  (oc.map (fun c => c.methods.length)).getD 0

/-- Names of the methods of an optionally present class joined by spaces,
the empty string when the class is absent. -/
def joinNames (oc : Option Class) : String :=
  match oc with
  | some c => joinSep " " (c.methods.map Method.name)
  | none => ""

/-- Union of the class names of both SDKs in first-occurrence order, as the
JavaScript Set of the component produces it. -/
def allClassNames (ts py : SDKData) : List String :=
  jsSetList (ts.classes.map Class.name ++ py.classes.map Class.name)

/-- Combined method count used by the two-level class ordering of the
enhanced variant: TypeScript methods without constructors plus all Python
methods, each read through the last-write-wins class map. -/
def orderCount (ts py : SDKData) (n : String) : Nat :=
  ((classLookup ts.classes n).map
      (fun c => (c.methods.filter (fun m => m.name ≠ "constructor")).length)).getD 0
  + methodLen (classLookup py.classes n)

/-- Comparator of the enhanced class ordering as a boolean total preorder:
larger combined method count first, ties broken alphabetically. -/
def classLe (ts py : SDKData) (a b : String) : Bool :=
  orderCount ts py b < orderCount ts py a
  || (orderCount ts py a = orderCount ts py b && strLe a b)

/-- Embedding of sortedClassNames of the enhanced variant: the deduplicated
union of class names sorted by descending combined method count with
alphabetical tie-break. -/
def sortedClassNames (ts py : SDKData) : List String :=
  jsSort (classLe ts py) (allClassNames ts py)

/-- Lowercased search text of one class name: the class name and the method
names of both sides joined by spaces. -/
def searchText (ts py : SDKData) (n : String) : String :=
  (n ++ " " ++ joinNames (classLookup ts.classes n) ++ " "
     ++ joinNames (classLookup py.classes n)) |> strToLower

/-- Embedding of the filter predicate of filteredClassNames: the hide-empty
early return, then the visibility-toggle match and the case-insensitive
substring search over the class name and all method names. -/
def classFilterPred (ts py : SDKData) (f : Filters) (n : String) : Bool :=
  let tsClass := classLookup ts.classes n
  let pythonClass := classLookup py.classes n
  if f.hideEmptyClasses && (methodLen tsClass = 0 && methodLen pythonClass = 0) then
    false
  else
    let matchesToggle :=
      match tsClass, pythonClass with
      | some _, some _ => f.showCommon
      | some _, none => f.showTsOnly
      | none, some _ => f.showPythonOnly
      | none, none => false
    let matchesSearch :=
      f.searchTerm = "" || strHas (searchText ts py n) (strToLower f.searchTerm)
    matchesToggle && matchesSearch

/-- Embedding of filteredClassNames of the enhanced variant. -/
def filteredClassNames (ts py : SDKData) (f : Filters) : List String :=
  (sortedClassNames ts py).filter (classFilterPred ts py f)

/-! ## Line lengths and method sorting (getSortedMethods) -/

/-- Line length of a method as computed throughout the component: effective
end line minus effective start line plus one, where a missing or zero
endLine or startLine falls back to line and a missing or zero line falls
back to one. -/
def lineLength (m : Method) : Int :=
  orNum m.endLine (orNum m.line 1) - orNum m.startLine (orNum m.line 1) + 1

/-- Boolean order of the descending length comparator passed to sort. -/
def lenLe (a b : Method) : Bool :=
  lineLength b ≤ lineLength a

/-- Boolean order of the alphabetical comparator passed to sort. -/
def nameLe (a b : Method) : Bool :=
  strLe a.name b.name

/-- Result of a getSortedMethods call together with the state of the
methods array of the argument class after the call, making the in-place
behaviour of Array.prototype.sort observable. -/
structure SortedMethodsResult where
  result : List Method
  methodsAfter : List Method
deriving DecidableEq, Repr

/-- Embedding of getSortedMethods of the enhanced variant. On the
TypeScript side the constructor filter produces a fresh array, so sorting
never touches the class. On the Python side with no matching TypeScript
class the methods field itself is sorted in place; with a matching class
only spread copies are sorted. -/
def getSortedMethods (ts py : SDKData) (hideCommonKeys sortLenKeys : List String)
    (sdkClass : Class) (sdkName : String) : SortedMethodsResult :=
  let isTs := sdkName = "ts"
  let methods :=
    if isTs then sdkClass.methods.filter (fun m => m.name ≠ "constructor")
    else sdkClass.methods
  let otherClass :=
    if isTs then classLookup py.classes sdkClass.name
    else classLookup ts.classes sdkClass.name
  let classKey := sdkName ++ "-" ++ sdkClass.name
  let shouldHideCommon := classKey ∈ hideCommonKeys
  let shouldSortByLength := classKey ∈ sortLenKeys
  match otherClass with
  | none =>
    let sorted :=
      if shouldSortByLength then jsSort lenLe methods
      else jsSort nameLe methods
    { result := sorted,
      methodsAfter := if isTs then sdkClass.methods else sorted }
  | some oc =>
    let otherNames :=
      oc.methods.map (fun m => if isTs then toCamelCase m.name else m.name)
    let normalize := fun (m : Method) =>
      if sdkName = "python" then toCamelCase m.name else m.name
    let sharedMethods := methods.filter (fun m => normalize m ∈ otherNames)
    let nonSharedMethods := methods.filter (fun m => normalize m ∉ otherNames)
    let filteredMethods :=
      if shouldHideCommon then nonSharedMethods
      else sharedMethods ++ nonSharedMethods
    let sorted :=
      if shouldSortByLength then jsSort lenLe filteredMethods
      else if shouldHideCommon then jsSort nameLe filteredMethods
      else jsSort nameLe sharedMethods ++ jsSort nameLe nonSharedMethods
    { result := sorted, methodsAfter := sdkClass.methods }

/-- Embedding of getSortedMethods of the simple variant: alphabetical sort
of the TypeScript methods without constructors, or of the Python methods
array itself, which is thereby reordered in place. -/
def getSortedMethodsSimple (sdkClass : Class) (sdkName : String) :
    SortedMethodsResult :=
  let isTs := sdkName = "ts"
  let methods :=
    if isTs then sdkClass.methods.filter (fun m => m.name ≠ "constructor")
    else sdkClass.methods
  let sorted := jsSort nameLe methods
  { result := sorted,
    methodsAfter := if isTs then sdkClass.methods else sorted }

/-! ## Ranking Engine (leaderboards) -/

/-- Entry of the longest-method leaderboard. -/
structure LengthEntry where
  method : Method
  className : String
  sdkName : String
  length : Int
deriving DecidableEq, Repr

/-- Boolean order of the descending comparator of the length leaderboard. -/
def entryLenLe (a b : LengthEntry) : Bool :=
  b.length ≤ a.length

/-- Full entry list scanned by findLongestMethods: every TypeScript method
except constructors, then every Python method, each with its line length. -/
def allLengthEntries (tsD pyD : SDKData) : List LengthEntry :=
  tsD.classes.flatMap (fun c =>
    (c.methods.filter (fun m => m.name ≠ "constructor")).map (fun m =>
      { method := m, className := c.name, sdkName := "ts",
        length := lineLength m }))
  ++ pyD.classes.flatMap (fun c =>
    c.methods.map (fun m =>
      { method := m, className := c.name, sdkName := "python",
        length := lineLength m }))

/-- Embedding of findLongestMethods: sort the full entry list by descending
length and keep the first fifteen entries. -/
def findLongestMethods (tsD pyD : SDKData) : List LengthEntry :=
  (jsSort entryLenLe (allLengthEntries tsD pyD)).take 15

/-- Name normalization of the ratio leaderboards: lowercase the name and
strip every underscore. -/
def ratioKeyNorm (s : String) : String :=
  ⟨(strToLower s).data.filter (fun c => c ≠ '_')⟩

/-- Entry of the two size-ratio leaderboards. -/
structure RatioEntry where
  methodName : String
  className : String
  pythonLength : Int
  tsLength : Int
  ratioVal : ℚ
deriving DecidableEq, Repr

/-- Boolean order of the descending comparator of the ratio leaderboards. -/
def ratioLe (a b : RatioEntry) : Bool :=
  b.ratioVal ≤ a.ratioVal

/-- Association list behind the TypeScript lookup map of the
Python-exceeds-TypeScript leaderboard: every non-constructor TypeScript
method keyed by class name, a dot and the normalized method name. -/
def tsRatioIndex (tsD : SDKData) : List (String × Method) :=
  tsD.classes.flatMap (fun c =>
    (c.methods.filter (fun m => m.name ≠ "constructor")).map (fun m =>
      (c.name ++ "." ++ ratioKeyNorm m.name, m)))

/-- Association list behind the Python lookup map of the symmetric
leaderboard: every Python method under the same key scheme. -/
def pyRatioIndex (pyD : SDKData) : List (String × Method) :=
  pyD.classes.flatMap (fun c =>
    c.methods.map (fun m => (c.name ++ "." ++ ratioKeyNorm m.name, m)))

/-- Last-write-wins lookup over an association list, as a JavaScript Map
built by repeated set calls resolves duplicate keys. -/
def idxLookup (l : List (String × Method)) (k : String) : Option Method :=
  (l.reverse.find? (fun p => p.1 = k)).map Prod.snd

/-- Entries recorded by findSizeRatioMethods before sorting: each Python
method whose key hits the TypeScript map and whose length strictly exceeds
the length of the method found there. -/
def methodRatiosPy (tsD pyD : SDKData) : List RatioEntry :=
  pyD.classes.flatMap (fun c =>
    c.methods.filterMap (fun m =>
      match idxLookup (tsRatioIndex tsD) (c.name ++ "." ++ ratioKeyNorm m.name) with
      | some t =>
        if lineLength t < lineLength m then
          some { methodName := m.name, className := c.name,
                 pythonLength := lineLength m, tsLength := lineLength t,
                 ratioVal := (lineLength m : ℚ) / (lineLength t : ℚ) }
        else none
      | none => none))

/-- Embedding of findSizeRatioMethods: sort the recorded entries by
descending ratio and keep the first fifteen. -/
def findSizeRatioMethods (tsD pyD : SDKData) : List RatioEntry :=
  (jsSort ratioLe (methodRatiosPy tsD pyD)).take 15

/-- Entries recorded by findTsSizeRatioMethods before sorting: each
non-constructor TypeScript method whose key hits the Python map and whose
length strictly exceeds the length of the method found there. -/
def methodRatiosTs (tsD pyD : SDKData) : List RatioEntry :=
  tsD.classes.flatMap (fun c =>
    c.methods.filterMap (fun m =>
      if m.name ≠ "constructor" then
        match idxLookup (pyRatioIndex pyD) (c.name ++ "." ++ ratioKeyNorm m.name) with
        | some p =>
          if lineLength p < lineLength m then
            some { methodName := m.name, className := c.name,
                   pythonLength := lineLength p, tsLength := lineLength m,
                   ratioVal := (lineLength m : ℚ) / (lineLength p : ℚ) }
          else none
        | none => none
      else none))

/-- Embedding of findTsSizeRatioMethods: the symmetric computation with the
roles of the SDKs reversed. -/
def findTsSizeRatioMethods (tsD pyD : SDKData) : List RatioEntry :=
  (jsSort ratioLe (methodRatiosTs tsD pyD)).take 15

/-- Removal of every method named constructor from every class of a
dataset, used to state that TypeScript constructors never influence a
computation. -/
def stripClassCtors (c : Class) : Class :=
  { c with methods := c.methods.filter (fun m => m.name ≠ "constructor") }

/-- Dataset with the constructors of every class removed. -/
def stripCtors (d : SDKData) : SDKData :=
  ⟨d.classes.map stripClassCtors⟩

/-! ## Snippet Fetcher (fetchCodeSnippet, enhanced variant) -/

/-- Removal of a fixed leading segment from a path, mirroring replace with
an anchored regular expression: only a leading occurrence is removed. -/
def stripLeadSeg (pre s : String) : String :=
  if strLead pre.data s.data then ⟨s.data.drop pre.data.length⟩ else s

/-- Embedding of getCleanFilePath: strip the SDK-specific repository
path segment from the front of the file path. -/
def getCleanFilePath (filePath sdkName : String) : String :=
  if sdkName = "ts" then stripLeadSeg "protocol-v2/sdk/src/" filePath
  else stripLeadSeg "driftpy/" filePath

/-- Slice of a list under the index conventions of Array.prototype.slice:
negative bounds count from the end and bounds are clamped to the array. -/
def jsSlice (l : List String) (a b : Int) : List String :=
  let n : Int := l.length
  let a2 := if a < 0 then max 0 (n + a) else min a n
  let b2 := if b < 0 then max 0 (n + b) else min b n
  (l.take b2.toNat).drop a2.toNat

/-- Outcome of the network round trip of one snippet fetch: a non-success
response status, a failure while decoding the body, or the decoded file
content. -/
inductive FetchResponse where
  | httpFail (status : Int)
  | decodeFail
  | body (content : String)
deriving DecidableEq, Repr

/-- Cached snippet entry of the enhanced variant. -/
structure SnippetEntry where
  content : String
  file : String
  line : Int
  language : String
  fullContent : String
  startLine : Int
  endLine : Int
deriving DecidableEq, Repr

/-- Component state touched by fetchCodeSnippet: the snippet cache and the
in-flight key set. -/
structure SnippetState where
  snippets : List (String × SnippetEntry)
  loading : Finset String
deriving DecidableEq

/-- Write to a JavaScript Map modelled as an association list: an existing
key keeps its position and receives the new value, a new key is appended. -/
def mapSet (l : List (String × SnippetEntry)) (k : String) (v : SnippetEntry) :
    List (String × SnippetEntry) :=
  if l.any (fun p => p.1 = k) then
    l.map (fun p => if p.1 = k then (k, v) else p)
  else l ++ [(k, v)]

/-- Lookup in the snippet cache. -/
def mapLookup (l : List (String × SnippetEntry)) (k : String) :
    Option SnippetEntry :=
  (l.find? (fun p => p.1 = k)).map Prod.snd

/-- Fallible body of fetchCodeSnippet, between the try and the catch: a
non-success response or a decoding failure raises, otherwise the decoded
content is split into lines and the requested window is cut out. -/
def fetchAttempt (filePath : String) (startLine endLine : Int)
    (sdkName : String) (resp : FetchResponse) : Except String SnippetEntry :=
  match resp with
  | .httpFail status => .error ("GitHub API error: " ++ toString status)
  | .decodeFail => .error "decode failure"
  | .body content =>
    let cleanPath := getCleanFilePath filePath sdkName
    let lines := content.splitOn "\n"
    let snippetStart : Int := max 0 (startLine - 1)
    let snippetEnd : Int := min (lines.length : Int) endLine
    let snippetLines := jsSlice lines snippetStart snippetEnd
    .ok { content := joinSep "\n" snippetLines,
          file := cleanPath,
          line := startLine,
          language := if sdkName = "ts" then "typescript" else "python",
          fullContent := content,
          startLine := snippetStart + 1,
          endLine := snippetEnd }

/-- Embedding of fetchCodeSnippet: the key is marked in flight, the body
runs under a catch-all that drops the error, and the finally block removes
the key from the in-flight set on every path. Only a successful body writes
the cache. -/
def fetchCodeSnippet (st : SnippetState) (filePath : String)
    (startLine endLine : Int) (sdkName key : String) (resp : FetchResponse) :
    SnippetState :=
  let loading1 := insert key st.loading
  match fetchAttempt filePath startLine endLine sdkName resp with
  | .ok entry =>
    { snippets := mapSet st.snippets key entry, loading := loading1.erase key }
  | .error _ =>
    { snippets := st.snippets, loading := loading1.erase key }

/-! ## Helper lemmas about the normalizer -/

theorem charToNat_ofNat {n : Nat} (h : n.isValidChar) : (Char.ofNat n).toNat = n := by
  rw [Char.ofNat, dif_pos h]
  simp [Char.ofNatAux, Char.toNat, UInt32.toNat]

theorem lowAz_iff {c : Char} : lowAz c = true ↔ 97 ≤ c.toNat ∧ c.toNat ≤ 122 := by
  simp [lowAz]

theorem toUpper_toNat {c : Char} (h : lowAz c = true) :
    (Char.toUpper c).toNat = c.toNat - 32 := by
  obtain ⟨h1, h2⟩ := lowAz_iff.mp h
  rw [Char.toUpper, if_pos ⟨h1, h2⟩]
  exact charToNat_ofNat (Or.inl (by omega))

theorem toUpper_not_lowAz {c : Char} (h : lowAz c = true) :
    lowAz (Char.toUpper c) = false := by
  obtain ⟨h1, h2⟩ := lowAz_iff.mp h
  have ht := toUpper_toNat h
  simp only [lowAz, Bool.and_eq_false_iff, decide_eq_false_iff_not, ht]
  omega

theorem toUpper_ne_underscore {c : Char} (h : lowAz c = true) :
    Char.toUpper c ≠ '_' := by
  obtain ⟨h1, h2⟩ := lowAz_iff.mp h
  have ht := toUpper_toNat h
  intro e
  have : (Char.toUpper c).toNat = 95 := by rw [e]; decide
  omega

theorem lowAz_underscore : lowAz '_' = false := by decide

theorem camelRepl_cons_ne {x : Char} (xs : List Char) (hx : x ≠ '_') :
    camelRepl (x :: xs) = x :: camelRepl xs := by
  cases xs with
  | nil => simp [camelRepl]
  | cons y ys =>
    rw [camelRepl.eq_def]
    split
    · simp_all
    · simp_all
    · simp_all

theorem camelRepl_underscore_not_low {c : Char} (rest : List Char)
    (h : lowAz c = false) :
    camelRepl ('_' :: c :: rest) = '_' :: camelRepl (c :: rest) := by
  rw [camelRepl]
  simp [h]

theorem camelRepl_underscore_low {c : Char} (rest : List Char)
    (h : lowAz c = true) :
    camelRepl ('_' :: c :: rest) = Char.toUpper c :: camelRepl rest := by
  rw [camelRepl]
  simp [h]

theorem camelRepl_head_not_low {c : Char} (rest : List Char)
    (h : lowAz c = false) :
    ∃ x xs, camelRepl (c :: rest) = x :: xs ∧ lowAz x = false := by
  by_cases hc : c = '_'
  · subst hc
    cases rest with
    | nil => exact ⟨'_', [], by simp [camelRepl], lowAz_underscore⟩
    | cons d rs =>
      by_cases hd : lowAz d
      · exact ⟨Char.toUpper d, camelRepl rs, camelRepl_underscore_low rs hd,
          toUpper_not_lowAz hd⟩
      · exact ⟨'_', camelRepl (d :: rs),
          camelRepl_underscore_not_low rs (by simpa using hd), lowAz_underscore⟩
  · exact ⟨c, camelRepl rest, camelRepl_cons_ne rest hc, h⟩

theorem camelRepl_idem (l : List Char) : camelRepl (camelRepl l) = camelRepl l := by
  induction l using camelRepl.induct with
  | case1 => simp [camelRepl]
  | case2 c rest hc ih =>
    rw [camelRepl_underscore_low rest hc,
      camelRepl_cons_ne (camelRepl rest) (toUpper_ne_underscore hc), ih]
  | case3 c rest hc ih =>
    have hc2 : lowAz c = false := by simpa using hc
    rw [camelRepl_underscore_not_low rest hc2]
    obtain ⟨x, xs, hx, hlow⟩ := camelRepl_head_not_low rest hc2
    rw [hx, camelRepl_underscore_not_low xs hlow, ← hx, ih]
  | case4 c rest hshape ih =>
    by_cases hc : c = '_'
    · subst hc
      cases rest with
      | nil => simp [camelRepl]
      | cons y ys => exact absurd rfl (fun e => hshape y ys e rfl)
    · rw [camelRepl_cons_ne rest hc, camelRepl_cons_ne (camelRepl rest) hc, ih]

theorem camelRepl_no_underscore (l : List Char) (h : '_' ∉ l) :
    camelRepl l = l := by
  induction l with
  | nil => simp [camelRepl]
  | cons x xs ih =>
    have hx : x ≠ '_' := fun e => h (e ▸ List.mem_cons_self x xs)
    rw [camelRepl_cons_ne xs hx, ih (fun hm => h (List.mem_cons_of_mem x hm))]

theorem camelRepl_append_low (a b : List Char) (c : Char) (ha : '_' ∉ a)
    (hc : lowAz c = true) :
    camelRepl (a ++ '_' :: c :: b) = a ++ Char.toUpper c :: camelRepl b := by
  induction a with
  | nil => simpa using camelRepl_underscore_low b hc
  | cons x xs ih =>
    have hx : x ≠ '_' := fun e => ha (e ▸ List.mem_cons_self x xs)
    rw [List.cons_append, camelRepl_cons_ne _ hx,
      ih (fun hm => ha (List.mem_cons_of_mem x hm)), List.cons_append]

theorem camelRepl_append_not_low (a b : List Char) (c : Char) (ha : '_' ∉ a)
    (hc : lowAz c = false) :
    camelRepl (a ++ '_' :: c :: b) = a ++ '_' :: camelRepl (c :: b) := by
  induction a with
  | nil => simpa using camelRepl_underscore_not_low b hc
  | cons x xs ih =>
    have hx : x ≠ '_' := fun e => ha (e ▸ List.mem_cons_self x xs)
    rw [List.cons_append, camelRepl_cons_ne _ hx,
      ih (fun hm => ha (List.mem_cons_of_mem x hm)), List.cons_append]

theorem camelRepl_append_trailing (a : List Char) (ha : '_' ∉ a) :
    camelRepl (a ++ ['_']) = a ++ ['_'] := by
  induction a with
  | nil => simp [camelRepl]
  | cons x xs ih =>
    have hx : x ≠ '_' := fun e => ha (e ▸ List.mem_cons_self x xs)
    rw [List.cons_append, camelRepl_cons_ne _ hx,
      ih (fun hm => ha (List.mem_cons_of_mem x hm))]

/-! ## Claim C2: behaviour of the identifier normalizer -/

/-- C2 counterexample: the claim predicts that every underscore is deleted
with the following letter uppercased, for all strings including those where
an underscore is followed by an uppercase letter, a digit, another
underscore or nothing. The code keeps such underscores: on the input a_C it
returns a_C while the described transformation returns aC, and likewise for
a_1, a double underscore and a trailing underscore. -/
theorem toCamelCase_claim_counterexample :
    toCamelCase "a_C" = "a_C" ∧ specCamelCase "a_C" = "aC"
      ∧ toCamelCase "a_C" ≠ specCamelCase "a_C"
      ∧ toCamelCase "a_1" = "a_1" ∧ specCamelCase "a_1" = "a1"
      ∧ toCamelCase "a__b" = "a_B" ∧ specCamelCase "a__b" = "aB"
      ∧ toCamelCase "a_" = "a_" ∧ specCamelCase "a_" = "a" := by
  decide

/-- C2 amended: toCamelCase deletes an underscore and uppercases the
following character exactly when that character is a lowercase ASCII
letter; an underscore followed by anything else, or final, is kept
unchanged with scanning resuming at the next character; every string
without underscores is returned unchanged; the function is total with no
error cases. -/
theorem toCamelCase_amended :
    (∀ s : String, '_' ∉ s.data → toCamelCase s = s)
    ∧ (∀ (a b : List Char) (c : Char), '_' ∉ a → lowAz c = true →
        camelRepl (a ++ '_' :: c :: b) = a ++ Char.toUpper c :: camelRepl b)
    ∧ (∀ (a b : List Char) (c : Char), '_' ∉ a → lowAz c = false →
        camelRepl (a ++ '_' :: c :: b) = a ++ '_' :: camelRepl (c :: b))
    ∧ (∀ a : List Char, '_' ∉ a → camelRepl (a ++ ['_']) = a ++ ['_']) := by
  refine ⟨?_, ?_, ?_, ?_⟩
  · intro s h
    show (⟨camelRepl s.data⟩ : String) = s
    rw [camelRepl_no_underscore s.data h]
  · exact fun a b c ha hc => camelRepl_append_low a b c ha hc
  · exact fun a b c ha hc => camelRepl_append_not_low a b c ha hc
  · exact fun a ha => camelRepl_append_trailing a ha

/-- C2 amended witness: the amended statement applied at concrete inputs,
one for each conjunct. -/
theorem toCamelCase_amended_witness :
    toCamelCase "abc" = "abc"
      ∧ camelRepl ("get".data ++ '_' :: 'p' :: "rice".data)
          = "get".data ++ Char.toUpper 'p' :: camelRepl "rice".data
      ∧ camelRepl ("a".data ++ '_' :: 'C' :: [])
          = "a".data ++ '_' :: camelRepl ('C' :: [])
      ∧ camelRepl ("a".data ++ ['_']) = "a".data ++ ['_'] :=
  ⟨toCamelCase_amended.1 "abc" (by decide),
   toCamelCase_amended.2.1 "get".data "rice".data 'p' (by decide) (by decide),
   toCamelCase_amended.2.2.1 "a".data [] 'C' (by decide) (by decide),
   toCamelCase_amended.2.2.2 "a".data (by decide)⟩

/-! ## Claim C1: the cross-SDK matcher -/

/-- C1: getMethodComparisonStatus returns the missing status when either
class is absent; otherwise the four-way result is determined exactly by
membership of the normalized query name (camel-cased for a Python origin,
unchanged for a TypeScript origin) in the TypeScript method-name set
without constructors and in the camel-cased Python method-name set. In
particular, for the class Foo present in both SDKs with TypeScript methods
getPrice and constructor and Python method get_price, both the getPrice
query of TypeScript origin and the get_price query of Python origin report
presence in both SDKs. -/
theorem getMethodComparisonStatus_spec (methodName sdk : String)
    (tsc pyc : Option Class) (_hsdk : sdk = "ts" ∨ sdk = "python") :
    ((tsc = none ∨ pyc = none) →
      getMethodComparisonStatus methodName tsc pyc sdk = "missing")
    ∧ (∀ tc pc, tsc = some tc → pyc = some pc →
        ((getMethodComparisonStatus methodName tsc pyc sdk = "both" ↔
            (if sdk = "python" then toCamelCase methodName else methodName) ∈
              (tc.methods.filter (fun m => m.name ≠ "constructor")).map Method.name
            ∧ (if sdk = "python" then toCamelCase methodName else methodName) ∈
              pc.methods.map (fun m => toCamelCase m.name))
        ∧ (getMethodComparisonStatus methodName tsc pyc sdk = "ts-only" ↔
            (if sdk = "python" then toCamelCase methodName else methodName) ∈
              (tc.methods.filter (fun m => m.name ≠ "constructor")).map Method.name
            ∧ (if sdk = "python" then toCamelCase methodName else methodName) ∉
              pc.methods.map (fun m => toCamelCase m.name))
        ∧ (getMethodComparisonStatus methodName tsc pyc sdk = "python-only" ↔
            (if sdk = "python" then toCamelCase methodName else methodName) ∉
              (tc.methods.filter (fun m => m.name ≠ "constructor")).map Method.name
            ∧ (if sdk = "python" then toCamelCase methodName else methodName) ∈
              pc.methods.map (fun m => toCamelCase m.name))
        ∧ (getMethodComparisonStatus methodName tsc pyc sdk = "missing" ↔
            (if sdk = "python" then toCamelCase methodName else methodName) ∉
              (tc.methods.filter (fun m => m.name ≠ "constructor")).map Method.name
            ∧ (if sdk = "python" then toCamelCase methodName else methodName) ∉
              pc.methods.map (fun m => toCamelCase m.name))))
    ∧ getMethodComparisonStatus "getPrice"
        (some (mCls "Foo" "f" [mMeth "getPrice", mMeth "constructor"]))
        (some (mCls "Foo" "g" [mMeth "get_price"])) "ts" = "both"
    ∧ getMethodComparisonStatus "get_price"
        (some (mCls "Foo" "f" [mMeth "getPrice", mMeth "constructor"]))
        (some (mCls "Foo" "g" [mMeth "get_price"])) "python" = "both" := by
  refine ⟨?_, ?_, by decide, by decide⟩
  · rintro (rfl | rfl)
    · simp [getMethodComparisonStatus]
    · cases tsc <;> simp [getMethodComparisonStatus]
  · rintro tc pc rfl rfl
    simp only [getMethodComparisonStatus]
    by_cases h1 : (if sdk = "python" then toCamelCase methodName else methodName) ∈
        (tc.methods.filter (fun m => m.name ≠ "constructor")).map Method.name <;>
      by_cases h2 : (if sdk = "python" then toCamelCase methodName else methodName) ∈
          pc.methods.map (fun m => toCamelCase m.name)
    · rw [if_pos ⟨h1, h2⟩]
      exact ⟨iff_of_true rfl ⟨h1, h2⟩,
        iff_of_false (by decide) (fun hp => hp.2 h2),
        iff_of_false (by decide) (fun hp => hp.1 h1),
        iff_of_false (by decide) (fun hp => hp.1 h1)⟩
    · rw [if_neg (fun h => h2 h.2), if_pos ⟨h1, h2⟩]
      exact ⟨iff_of_false (by decide) (fun hp => h2 hp.2),
        iff_of_true rfl ⟨h1, h2⟩,
        iff_of_false (by decide) (fun hp => hp.1 h1),
        iff_of_false (by decide) (fun hp => hp.1 h1)⟩
    · rw [if_neg (fun h => h1 h.1), if_neg (fun h => h1 h.1), if_pos ⟨h1, h2⟩]
      exact ⟨iff_of_false (by decide) (fun hp => h1 hp.1),
        iff_of_false (by decide) (fun hp => h1 hp.1),
        iff_of_true rfl ⟨h1, h2⟩,
        iff_of_false (by decide) (fun hp => hp.2 h2)⟩
    · rw [if_neg (fun h => h1 h.1), if_neg (fun h => h1 h.1), if_neg (fun h => h2 h.2)]
      exact ⟨iff_of_false (by decide) (fun hp => h1 hp.1),
        iff_of_false (by decide) (fun hp => h1 hp.1),
        iff_of_false (by decide) (fun hp => h2 hp.2),
        iff_of_true rfl ⟨h1, h2⟩⟩

/-- C1 witness: the matcher specification applied at a concrete input with
both classes present, discharging every hypothesis. -/
theorem getMethodComparisonStatus_spec_witness :
    getMethodComparisonStatus "getPrice"
      (some (mCls "Foo" "f" [mMeth "getPrice", mMeth "constructor"]))
      (some (mCls "Foo" "g" [mMeth "get_price"])) "ts" = "both" ↔
      ("getPrice" : String) ∈
        ((mCls "Foo" "f" [mMeth "getPrice", mMeth "constructor"]).methods.filter
          (fun m => m.name ≠ "constructor")).map Method.name
      ∧ ("getPrice" : String) ∈
        (mCls "Foo" "g" [mMeth "get_price"]).methods.map (fun m => toCamelCase m.name) := by
  have h := (getMethodComparisonStatus_spec "getPrice" "ts"
    (some (mCls "Foo" "f" [mMeth "getPrice", mMeth "constructor"]))
    (some (mCls "Foo" "g" [mMeth "get_price"])) (Or.inl rfl)).2.1
    (mCls "Foo" "f" [mMeth "getPrice", mMeth "constructor"])
    (mCls "Foo" "g" [mMeth "get_price"]) rfl rfl
  simpa using h.1

/-! ## Claims C9 and C10: snippet fetch failure semantics -/

/-- C9: when the remote response is non-successful or decoding fails, the
error is swallowed by the catch and the snippet cache is left untouched, so
the requested key has no entry afterwards whenever it had none before and
the fetch can be retried. -/
theorem fetchCodeSnippet_failure_spec (st : SnippetState) (filePath : String)
    (startLine endLine : Int) (sdkName key : String) (resp : FetchResponse)
    (hfail : (∃ status, resp = .httpFail status) ∨ resp = .decodeFail) :
    (fetchCodeSnippet st filePath startLine endLine sdkName key resp).snippets
      = st.snippets
    ∧ (mapLookup st.snippets key = none →
        mapLookup
          (fetchCodeSnippet st filePath startLine endLine sdkName key resp).snippets
          key = none) := by
  obtain ⟨msg, hm⟩ :
      ∃ msg, fetchAttempt filePath startLine endLine sdkName resp = .error msg := by
    rcases hfail with ⟨s, rfl⟩ | rfl
    · exact ⟨_, rfl⟩
    · exact ⟨_, rfl⟩
  refine ⟨?_, ?_⟩
  · simp [fetchCodeSnippet, hm]
  · intro h
    simpa [fetchCodeSnippet, hm] using h

/-- C9 witness: a concrete failed fetch against an empty state leaves the
cache empty and the key unresolved. -/
theorem fetchCodeSnippet_failure_witness :
    (fetchCodeSnippet ⟨[], ∅⟩ "driftpy/x.py" 1 3 "python" "k"
        (.httpFail 404)).snippets = []
    ∧ mapLookup
        (fetchCodeSnippet ⟨[], ∅⟩ "driftpy/x.py" 1 3 "python" "k"
          (.httpFail 404)).snippets "k" = none := by
  have h := fetchCodeSnippet_failure_spec ⟨[], ∅⟩ "driftpy/x.py" 1 3 "python" "k"
    (.httpFail 404) (Or.inl ⟨404, rfl⟩)
  exact ⟨h.1, h.2 rfl⟩

/-- C10: whichever way a snippet fetch completes, the finally block removes
the requested key from the in-flight set, so the key is never left marked
as loading. -/
theorem fetchCodeSnippet_loading_cleared (st : SnippetState) (filePath : String)
    (startLine endLine : Int) (sdkName key : String) (resp : FetchResponse) :
    key ∉ (fetchCodeSnippet st filePath startLine endLine sdkName key resp).loading := by
  cases hr : fetchAttempt filePath startLine endLine sdkName resp with
  | ok e => simp [fetchCodeSnippet, hr]
  | error msg => simp [fetchCodeSnippet, hr]

/-! ## Claim C3: mutation of the supplied data -/

/-- C3 counterexample: getSortedMethods on a Python-side class with no
matching TypeScript class sorts the methods array of the class in place;
on a class whose methods are not already alphabetical the array differs
afterwards, so the externally supplied data is mutated. -/
theorem getSortedMethods_mutation_counterexample :
    (getSortedMethods ⟨[]⟩ ⟨[mCls "Bar" "g" [mMeth "b", mMeth "a"]]⟩ [] []
        (mCls "Bar" "g" [mMeth "b", mMeth "a"]) "python").methodsAfter
      ≠ (mCls "Bar" "g" [mMeth "b", mMeth "a"]).methods := by
  decide

/-- C3 amended: no operation mutates the supplied data except the in-place
alphabetical or by-length sort of getSortedMethods: TypeScript-side calls
never mutate the class because the constructor filter copies the array;
enhanced-variant Python-side calls with a matching TypeScript class sort
only spread copies; enhanced-variant Python-side calls with no matching
class, and every simple-variant Python-side call, reorder the methods array
of the class in place, leaving a permutation of the original methods. -/
theorem getSortedMethods_mutation_amended :
    (∀ ts py hk sk cls,
      (getSortedMethods ts py hk sk cls "ts").methodsAfter = cls.methods)
    ∧ (∀ ts py hk sk cls sdk, sdk ≠ "ts" →
        (classLookup ts.classes cls.name).isSome = true →
        (getSortedMethods ts py hk sk cls sdk).methodsAfter = cls.methods)
    ∧ (∀ ts py hk sk cls sdk, sdk ≠ "ts" →
        classLookup ts.classes cls.name = none →
        (getSortedMethods ts py hk sk cls sdk).methodsAfter.Perm cls.methods)
    ∧ (∀ cls, (getSortedMethodsSimple cls "ts").methodsAfter = cls.methods)
    ∧ (∀ cls sdk, sdk ≠ "ts" →
        (getSortedMethodsSimple cls sdk).methodsAfter.Perm cls.methods) := by
  refine ⟨?_, ?_, ?_, ?_, ?_⟩
  · intro ts py hk sk cls
    simp only [getSortedMethods]
    cases h : classLookup py.classes cls.name <;> simp [h]
  · intro ts py hk sk cls sdk hsdk hsome
    obtain ⟨oc, hoc⟩ := Option.isSome_iff_exists.mp hsome
    simp [getSortedMethods, hsdk, hoc]
  · intro ts py hk sk cls sdk hsdk hnone
    simp only [getSortedMethods, if_neg hsdk, hnone]
    by_cases hm : (sdk ++ "-" ++ cls.name) ∈ sk <;>
      simp [hm, jsSort_perm]
  · intro cls
    simp [getSortedMethodsSimple]
  · intro cls sdk hsdk
    simp [getSortedMethodsSimple, hsdk, jsSort_perm]

/-- C3 amended witness: the amended statement applied at concrete inputs,
discharging the hypotheses of every conjunct that has one. -/
theorem getSortedMethods_mutation_amended_witness :
    (getSortedMethods ⟨[mCls "Foo" "f" [mMeth "a"]]⟩ ⟨[]⟩ [] []
        (mCls "Foo" "g" [mMeth "b", mMeth "a"]) "python").methodsAfter
      = (mCls "Foo" "g" [mMeth "b", mMeth "a"]).methods
    ∧ (getSortedMethods ⟨[]⟩ ⟨[]⟩ [] []
        (mCls "Bar" "g" [mMeth "b", mMeth "a"]) "python").methodsAfter.Perm
        (mCls "Bar" "g" [mMeth "b", mMeth "a"]).methods
    ∧ (getSortedMethodsSimple (mCls "Bar" "g" [mMeth "b", mMeth "a"])
        "python").methodsAfter.Perm (mCls "Bar" "g" [mMeth "b", mMeth "a"]).methods :=
  ⟨getSortedMethods_mutation_amended.2.1 ⟨[mCls "Foo" "f" [mMeth "a"]]⟩ ⟨[]⟩ [] []
      (mCls "Foo" "g" [mMeth "b", mMeth "a"]) "python" (by decide) (by decide),
   getSortedMethods_mutation_amended.2.2.1 ⟨[]⟩ ⟨[]⟩ [] []
      (mCls "Bar" "g" [mMeth "b", mMeth "a"]) "python" (by decide) (by decide),
   getSortedMethods_mutation_amended.2.2.2.2 (mCls "Bar" "g" [mMeth "b", mMeth "a"])
      "python" (by decide)⟩

/-! ## Claim C4: class-level filtering -/

theorem classFilterPred_iff (ts py : SDKData) (f : Filters) (n : String) :
    classFilterPred ts py f n = true ↔
      ((f.hideEmptyClasses = false ∨ 0 < methodLen (classLookup ts.classes n)
          ∨ 0 < methodLen (classLookup py.classes n))
       ∧ (((classLookup ts.classes n).isSome = true
            ∧ (classLookup py.classes n).isSome = true ∧ f.showCommon = true)
          ∨ ((classLookup ts.classes n).isSome = true
            ∧ classLookup py.classes n = none ∧ f.showTsOnly = true)
          ∨ (classLookup ts.classes n = none
            ∧ (classLookup py.classes n).isSome = true ∧ f.showPythonOnly = true))
       ∧ (f.searchTerm = ""
          ∨ strHas (searchText ts py n) (strToLower f.searchTerm) = true)) := by
  unfold classFilterPred
  rcases hts : classLookup ts.classes n with _ | tc <;>
    rcases hpy : classLookup py.classes n with _ | pc <;>
      simp only [hts, hpy] <;>
      cases hhe : f.hideEmptyClasses <;>
      split <;>
      simp_all [methodLen, List.length_pos] <;>
      tauto

theorem mem_jsSetAux (l : List String) :
    ∀ (seen : List String) (a : String),
      a ∈ jsSetAux seen l ↔ (a ∈ l ∧ a ∉ seen) := by
  induction l with
  | nil =>
    intro seen a
    simp [jsSetAux]
  | cons b rest ih =>
    intro seen a
    by_cases hb : b ∈ seen
    · rw [jsSetAux, if_pos hb, ih]
      constructor
      · rintro ⟨ha, hs⟩
        exact ⟨List.mem_cons_of_mem b ha, hs⟩
      · rintro ⟨ha, hs⟩
        rcases List.mem_cons.mp ha with rfl | ha2
        · exact absurd hb hs
        · exact ⟨ha2, hs⟩
    · rw [jsSetAux, if_neg hb]
      constructor
      · intro hmem
        rcases List.mem_cons.mp hmem with rfl | h2
        · exact ⟨List.mem_cons_self _ _, hb⟩
        · obtain ⟨ha, hs⟩ := (ih (b :: seen) a).mp h2
          exact ⟨List.mem_cons_of_mem b ha,
            fun hseen => hs (List.mem_cons_of_mem b hseen)⟩
      · rintro ⟨ha, hs⟩
        rcases List.mem_cons.mp ha with rfl | ha2
        · exact List.mem_cons_self _ _
        · by_cases hab : a = b
          · subst hab
            exact List.mem_cons_self _ _
          · refine List.mem_cons_of_mem b ((ih (b :: seen) a).mpr ⟨ha2, ?_⟩)
            intro hmem2
            rcases List.mem_cons.mp hmem2 with h3 | h3
            · exact hab h3
            · exact hs h3

theorem mem_jsSetList {l : List String} {a : String} :
    a ∈ jsSetList l ↔ a ∈ l := by
  rw [jsSetList, mem_jsSetAux]
  simp

theorem mem_sortedClassNames {ts py : SDKData} {n : String} :
    n ∈ sortedClassNames ts py ↔
      n ∈ ts.classes.map Class.name ++ py.classes.map Class.name := by
  rw [sortedClassNames, mem_jsSort, allClassNames, mem_jsSetList]

theorem classLookup_isSome_mem {cs : List Class} {n : String}
    (h : (classLookup cs n).isSome = true) : n ∈ cs.map Class.name := by
  obtain ⟨c, hc⟩ := Option.isSome_iff_exists.mp h
  have hmem : c ∈ cs.reverse := List.mem_of_find?_eq_some hc
  have hp := List.find?_some hc
  have hn : c.name = n := by simpa using hp
  subst hn
  exact List.mem_map.mpr ⟨c, List.mem_reverse.mp hmem, rfl⟩

/-- C4: a class name appears in the filtered class list iff (a) hide-empty
is off or at least one SDK has a method for that name, (b) its presence
pattern (common, TypeScript-only, Python-only, read through the
last-write-wins class maps) matches an enabled visibility flag, and (c) the
search string is empty or is a case-insensitive substring of the
concatenation of the class name and all method names of both sides;
consequently, with all three visibility flags off the filtered list is
empty for every input and every search text. -/
theorem filteredClassNames_spec :
    (∀ ts py f n,
      n ∈ filteredClassNames ts py f ↔
        ((f.hideEmptyClasses = false ∨ 0 < methodLen (classLookup ts.classes n)
            ∨ 0 < methodLen (classLookup py.classes n))
         ∧ (((classLookup ts.classes n).isSome = true
              ∧ (classLookup py.classes n).isSome = true ∧ f.showCommon = true)
            ∨ ((classLookup ts.classes n).isSome = true
              ∧ classLookup py.classes n = none ∧ f.showTsOnly = true)
            ∨ (classLookup ts.classes n = none
              ∧ (classLookup py.classes n).isSome = true
              ∧ f.showPythonOnly = true))
         ∧ (f.searchTerm = ""
            ∨ strHas (searchText ts py n) (strToLower f.searchTerm) = true)))
    ∧ (∀ ts py f, f.showCommon = false → f.showTsOnly = false →
        f.showPythonOnly = false → filteredClassNames ts py f = []) := by
  constructor
  · intro ts py f n
    rw [filteredClassNames, List.mem_filter, classFilterPred_iff]
    constructor
    · rintro ⟨_, h⟩
      exact h
    · intro h
      refine ⟨mem_sortedClassNames.mpr ?_, h⟩
      rcases h.2.1 with ⟨h1, _, _⟩ | ⟨h1, _, _⟩ | ⟨_, h1, _⟩
      · exact List.mem_append.mpr (Or.inl (classLookup_isSome_mem h1))
      · exact List.mem_append.mpr (Or.inl (classLookup_isSome_mem h1))
      · exact List.mem_append.mpr (Or.inr (classLookup_isSome_mem h1))
  · intro ts py f hc ht hp
    rw [filteredClassNames, List.filter_eq_nil_iff]
    intro a _ hpred
    rcases ((classFilterPred_iff ts py f a).mp hpred).2.1 with
      ⟨_, _, h1⟩ | ⟨_, _, h1⟩ | ⟨_, _, h1⟩
    · rw [hc] at h1
      exact Bool.false_ne_true h1
    · rw [ht] at h1
      exact Bool.false_ne_true h1
    · rw [hp] at h1
      exact Bool.false_ne_true h1

/-- C4 witness: on the specification's class Bar, present only in Python,
the filtered list is empty with all three visibility flags off and contains
Bar with the Python-only flag on, the filter conditions discharged by
evaluation. -/
theorem filteredClassNames_spec_witness :
    filteredClassNames ⟨[]⟩ ⟨[mCls "Bar" "g" [mMeth "initialize"]]⟩
        ⟨false, false, false, true, ""⟩ = []
    ∧ ("Bar" ∈ filteredClassNames ⟨[]⟩ ⟨[mCls "Bar" "g" [mMeth "initialize"]]⟩
        ⟨false, false, true, true, ""⟩) :=
  ⟨filteredClassNames_spec.2 _ _ _ rfl rfl rfl,
   (filteredClassNames_spec.1 ⟨[]⟩ ⟨[mCls "Bar" "g" [mMeth "initialize"]]⟩
      ⟨false, false, true, true, ""⟩ "Bar").mpr (by decide)⟩

/-! ## Claim C5: where TypeScript constructors are excluded -/

theorem filterMap_filter_of_none {α β : Type} (p : α → Bool) (f : α → Option β)
    (h : ∀ a, p a = false → f a = none) (l : List α) :
    (l.filter p).filterMap f = l.filterMap f := by
  induction l with
  | nil => rfl
  | cons x xs ih =>
    cases hp : p x
    · simp [List.filter_cons, hp, List.filterMap_cons, h x hp, ih]
    · simp [List.filter_cons, hp, List.filterMap_cons, ih]

theorem filter_ctor_idem (ms : List Method) :
    (ms.filter (fun m => m.name ≠ "constructor")).filter
        (fun m => m.name ≠ "constructor")
      = ms.filter (fun m => m.name ≠ "constructor") := by
  rw [List.filter_filter]
  simp

theorem stripClassCtors_methods (c : Class) :
    (stripClassCtors c).methods
      = c.methods.filter (fun m => m.name ≠ "constructor") := rfl

theorem stripClassCtors_name (c : Class) : (stripClassCtors c).name = c.name := rfl

theorem stripCtors_classes (d : SDKData) :
    (stripCtors d).classes = d.classes.map stripClassCtors := rfl

theorem classLookup_stripCtors (d : SDKData) (n : String) :
    classLookup (stripCtors d).classes n
      = (classLookup d.classes n).map stripClassCtors := by
  unfold classLookup
  rw [stripCtors_classes, ← List.map_reverse, List.find?_map]
  rfl

theorem orderCount_stripCtors (ts py : SDKData) (n : String) :
    orderCount (stripCtors ts) py n = orderCount ts py n := by
  unfold orderCount
  rw [classLookup_stripCtors]
  cases h : classLookup ts.classes n with
  | none => rfl
  | some c =>
    simp [stripClassCtors_methods, filter_ctor_idem]

theorem allClassNames_stripCtors (ts py : SDKData) :
    allClassNames (stripCtors ts) py = allClassNames ts py := by
  unfold allClassNames stripCtors
  rw [List.map_map]
  rfl

theorem sortedClassNames_stripCtors (ts py : SDKData) :
    sortedClassNames (stripCtors ts) py = sortedClassNames ts py := by
  unfold sortedClassNames
  rw [allClassNames_stripCtors]
  have : classLe (stripCtors ts) py = classLe ts py := by
    funext a b
    unfold classLe
    rw [orderCount_stripCtors, orderCount_stripCtors]
  rw [this]

theorem status_stripCtors (n : String) (tc : Class) (pyc : Option Class)
    (sdk : String) :
    getMethodComparisonStatus n (some (stripClassCtors tc)) pyc sdk
      = getMethodComparisonStatus n (some tc) pyc sdk := by
  cases pyc with
  | none => rfl
  | some pc =>
    simp only [getMethodComparisonStatus, stripClassCtors_methods, filter_ctor_idem]

theorem allLengthEntries_stripCtors (ts py : SDKData) :
    allLengthEntries (stripCtors ts) py = allLengthEntries ts py := by
  unfold allLengthEntries
  rw [stripCtors_classes, List.flatMap_map]
  congr 1
  congr 1
  funext c
  simp only [stripClassCtors_methods, stripClassCtors_name, filter_ctor_idem]

theorem tsRatioIndex_stripCtors (d : SDKData) :
    tsRatioIndex (stripCtors d) = tsRatioIndex d := by
  unfold tsRatioIndex
  rw [stripCtors_classes, List.flatMap_map]
  congr 1
  funext c
  simp only [stripClassCtors_methods, stripClassCtors_name, filter_ctor_idem]

theorem methodRatiosPy_stripCtors (ts py : SDKData) :
    methodRatiosPy (stripCtors ts) py = methodRatiosPy ts py := by
  unfold methodRatiosPy
  simp only [tsRatioIndex_stripCtors]

theorem methodRatiosTs_stripCtors (ts py : SDKData) :
    methodRatiosTs (stripCtors ts) py = methodRatiosTs ts py := by
  unfold methodRatiosTs
  rw [stripCtors_classes, List.flatMap_map]
  congr 1
  funext c
  simp only [stripClassCtors_methods, stripClassCtors_name]
  apply filterMap_filter_of_none
  intro a ha
  rw [if_neg (of_decide_eq_false ha)]

theorem mem_getSortedMethods_ts (ts py : SDKData) (hk sk : List String)
    (cls : Class) (m : Method)
    (hm : m ∈ (getSortedMethods ts py hk sk cls "ts").result) :
    m ∈ cls.methods.filter (fun x => x.name ≠ "constructor") := by
  simp only [getSortedMethods, String.reduceEq, reduceIte] at hm
  split at hm
  · split at hm <;> exact (mem_jsSort.mp hm)
  · split at hm
    · have h2 := mem_jsSort.mp hm
      split at h2
      · exact (List.mem_filter.mp h2).1
      · rcases List.mem_append.mp h2 with h3 | h3 <;> exact (List.mem_filter.mp h3).1
    · split at hm
      · exact (List.mem_filter.mp (mem_jsSort.mp hm)).1
      · rcases List.mem_append.mp hm with h3 | h3 <;>
          exact (List.mem_filter.mp (mem_jsSort.mp h3)).1

/-- C5 counterexample: TypeScript constructors do take part in the
hide-empty emptiness test (class Baz whose only method is a constructor
survives the hide-empty filter), in the search-text concatenation
(searching for the word constructor surfaces Baz), and in the shared
partition of getSortedMethods for Python methods (a Python method named
constructor is hidden as shared precisely because the TypeScript class has
a constructor: with constructors stripped from the TypeScript data the same
call renders the method). -/
theorem constructor_exclusion_counterexample :
    filteredClassNames ⟨[mCls "Baz" "f" [mMeth "constructor"]]⟩ ⟨[]⟩
        ⟨false, true, false, true, ""⟩ = ["Baz"]
    ∧ filteredClassNames ⟨[mCls "Baz" "f" [mMeth "constructor"]]⟩ ⟨[]⟩
        ⟨false, true, false, false, "constructor"⟩ = ["Baz"]
    ∧ (getSortedMethods ⟨[mCls "Foo" "f" [mMeth "constructor"]]⟩
        ⟨[mCls "Foo" "g" [mMeth "constructor"]]⟩ ["python-Foo"] []
        (mCls "Foo" "g" [mMeth "constructor"]) "python").result = []
    ∧ (getSortedMethods (stripCtors ⟨[mCls "Foo" "f" [mMeth "constructor"]]⟩)
        ⟨[mCls "Foo" "g" [mMeth "constructor"]]⟩ ["python-Foo"] []
        (mCls "Foo" "g" [mMeth "constructor"]) "python").result
        = [mMeth "constructor"] := by
  decide

/-- C5 amended: TypeScript methods named constructor never appear in a
rendered TypeScript method list, never influence the comparison status,
the three leaderboards or the class ordering (removing them from the
TypeScript dataset changes none of these computations); but they do count
in the hide-empty emptiness test, in the search-text concatenation of the
class filter, and in the TypeScript name list against which Python methods
are partitioned as shared inside getSortedMethods. -/
theorem constructor_exclusion_amended :
    (∀ ts py hk sk cls m, m ∈ (getSortedMethods ts py hk sk cls "ts").result →
        m.name ≠ "constructor")
    ∧ (∀ n tc pyc sdk,
        getMethodComparisonStatus n (some (stripClassCtors tc)) pyc sdk
          = getMethodComparisonStatus n (some tc) pyc sdk)
    ∧ (∀ ts py, findLongestMethods (stripCtors ts) py = findLongestMethods ts py)
    ∧ (∀ ts py, findSizeRatioMethods (stripCtors ts) py = findSizeRatioMethods ts py)
    ∧ (∀ ts py, findTsSizeRatioMethods (stripCtors ts) py
        = findTsSizeRatioMethods ts py)
    ∧ (∀ ts py, sortedClassNames (stripCtors ts) py = sortedClassNames ts py) := by
  refine ⟨?_, ?_, ?_, ?_, ?_, sortedClassNames_stripCtors⟩
  · intro ts py hk sk cls m hm
    have h := mem_getSortedMethods_ts ts py hk sk cls m hm
    simpa using (List.mem_filter.mp h).2
  · exact status_stripCtors
  · intro ts py
    unfold findLongestMethods
    rw [allLengthEntries_stripCtors]
  · intro ts py
    unfold findSizeRatioMethods
    rw [methodRatiosPy_stripCtors]
  · intro ts py
    unfold findTsSizeRatioMethods
    rw [methodRatiosTs_stripCtors]

/-- C5 amended witness: the rendered-list conjunct applied at a concrete
TypeScript class whose sorted list contains getPrice, the membership
discharged by evaluation. -/
theorem constructor_exclusion_amended_witness :
    (mMeth "getPrice").name ≠ "constructor" :=
  constructor_exclusion_amended.1
    ⟨[mCls "Foo" "f" [mMeth "getPrice", mMeth "constructor"]]⟩ ⟨[]⟩ [] []
    (mCls "Foo" "f" [mMeth "getPrice", mMeth "constructor"]) (mMeth "getPrice")
    (by decide)

/-! ## Claim C6: the size-ratio leaderboards -/

theorem memRatiosPy_iff (tsD pyD : SDKData) (e : RatioEntry) :
    e ∈ methodRatiosPy tsD pyD ↔
      ∃ c ∈ pyD.classes, ∃ m ∈ c.methods, ∃ t,
        idxLookup (tsRatioIndex tsD) (c.name ++ "." ++ ratioKeyNorm m.name) = some t
        ∧ lineLength t < lineLength m
        ∧ ({ methodName := m.name, className := c.name,
             pythonLength := lineLength m, tsLength := lineLength t,
             ratioVal := (lineLength m : ℚ) / (lineLength t : ℚ) } : RatioEntry) = e := by
  simp only [methodRatiosPy, List.mem_flatMap, List.mem_filterMap]
  constructor
  · rintro ⟨c, hc, m, hm, hf⟩
    refine ⟨c, hc, m, hm, ?_⟩
    rcases h : idxLookup (tsRatioIndex tsD) (c.name ++ "." ++ ratioKeyNorm m.name) with
      _ | t
    · simp only [h] at hf
      exact Option.noConfusion hf
    · simp only [h] at hf
      by_cases hlt : lineLength t < lineLength m
      · rw [if_pos hlt] at hf
        exact ⟨t, rfl, hlt, Option.some.inj hf⟩
      · rw [if_neg hlt] at hf
        exact absurd hf (by simp)
  · rintro ⟨c, hc, m, hm, t, ht, hlt, he⟩
    refine ⟨c, hc, m, hm, ?_⟩
    simp only [ht]
    rw [if_pos hlt, he]

theorem memRatiosTs_iff (tsD pyD : SDKData) (e : RatioEntry) :
    e ∈ methodRatiosTs tsD pyD ↔
      ∃ c ∈ tsD.classes, ∃ m ∈ c.methods, m.name ≠ "constructor" ∧ ∃ p,
        idxLookup (pyRatioIndex pyD) (c.name ++ "." ++ ratioKeyNorm m.name) = some p
        ∧ lineLength p < lineLength m
        ∧ ({ methodName := m.name, className := c.name,
             pythonLength := lineLength p, tsLength := lineLength m,
             ratioVal := (lineLength m : ℚ) / (lineLength p : ℚ) } : RatioEntry) = e := by
  simp only [methodRatiosTs, List.mem_flatMap, List.mem_filterMap]
  constructor
  · rintro ⟨c, hc, m, hm, hf⟩
    refine ⟨c, hc, m, hm, ?_⟩
    by_cases hn : m.name = "constructor"
    · rw [if_neg (by simpa using hn)] at hf
      exact absurd hf (by simp)
    · rw [if_pos (by simpa using hn)] at hf
      refine ⟨hn, ?_⟩
      rcases h : idxLookup (pyRatioIndex pyD) (c.name ++ "." ++ ratioKeyNorm m.name) with
        _ | p
      · simp only [h] at hf
        exact Option.noConfusion hf
      · simp only [h] at hf
        by_cases hlt : lineLength p < lineLength m
        · rw [if_pos hlt] at hf
          exact ⟨p, rfl, hlt, Option.some.inj hf⟩
        · rw [if_neg hlt] at hf
          exact absurd hf (by simp)
  · rintro ⟨c, hc, m, hm, hn, p, hp, hlt, he⟩
    refine ⟨c, hc, m, hm, ?_⟩
    rw [if_pos (by simpa using hn)]
    simp only [hp]
    rw [if_pos hlt, he]

/-- C6 counterexample: the claim asserts an entry exists whenever some
TypeScript method of the same-named class has an identically normalized
name and strictly smaller length. With two TypeScript methods in class Foo
normalizing to the same key (getPrice of length one and get_price of
length ten, the latter indexed later and winning the last-write-wins map)
and a Python get_price of length five, such a TypeScript method exists
(getPrice, length one below five), yet the leaderboard is empty because
the lookup sees only the last-indexed method of length ten. -/
theorem findSizeRatioMethods_counterexample :
    findSizeRatioMethods
        ⟨[mCls "Foo" "f" [mMethL "getPrice" 1 1, mMethL "get_price" 1 10]]⟩
        ⟨[mCls "Foo" "g" [mMethL "get_price" 1 5]]⟩ = []
    ∧ ratioKeyNorm "getPrice" = ratioKeyNorm "get_price"
    ∧ mMethL "getPrice" 1 1 ∈
        (mCls "Foo" "f" [mMethL "getPrice" 1 1, mMethL "get_price" 1 10]).methods
    ∧ lineLength (mMethL "getPrice" 1 1) < lineLength (mMethL "get_price" 1 5) := by
  decide

/-- C6 amended: an entry is recorded for a Python method iff the
last-write-wins TypeScript lookup map of the same class-name-and-normalized-
name key holds a method of strictly smaller line length; each entry's ratio
equals pythonLength divided by tsLength as a rational; the board is the
descending-by-ratio sort truncated to at most fifteen entries; entries of
the symmetric TypeScript board satisfy the mirrored strict inequality, so
no matched pair with its recorded lengths appears on both boards. -/
theorem sizeRatioLeaderboards_amended (tsD pyD : SDKData) :
    (∀ e, e ∈ methodRatiosPy tsD pyD ↔
      ∃ c ∈ pyD.classes, ∃ m ∈ c.methods, ∃ t,
        idxLookup (tsRatioIndex tsD) (c.name ++ "." ++ ratioKeyNorm m.name) = some t
        ∧ lineLength t < lineLength m
        ∧ ({ methodName := m.name, className := c.name,
             pythonLength := lineLength m, tsLength := lineLength t,
             ratioVal := (lineLength m : ℚ) / (lineLength t : ℚ) } : RatioEntry) = e)
    ∧ findSizeRatioMethods tsD pyD = (jsSort ratioLe (methodRatiosPy tsD pyD)).take 15
    ∧ (findSizeRatioMethods tsD pyD).length ≤ 15
    ∧ List.Pairwise (fun a b => b.ratioVal ≤ a.ratioVal) (findSizeRatioMethods tsD pyD)
    ∧ (∀ e ∈ findSizeRatioMethods tsD pyD,
        e.tsLength < e.pythonLength
        ∧ e.ratioVal = (e.pythonLength : ℚ) / (e.tsLength : ℚ))
    ∧ (∀ e ∈ findTsSizeRatioMethods tsD pyD,
        e.pythonLength < e.tsLength
        ∧ e.ratioVal = (e.tsLength : ℚ) / (e.pythonLength : ℚ))
    ∧ (∀ e ∈ findSizeRatioMethods tsD pyD, ∀ e2 ∈ findTsSizeRatioMethods tsD pyD,
        ¬(e.className = e2.className ∧ e.pythonLength = e2.pythonLength
          ∧ e.tsLength = e2.tsLength)) := by
  have htot : ∀ a b : RatioEntry, ratioLe a b = true ∨ ratioLe b a = true := by
    intro a b
    simpa [ratioLe] using le_total b.ratioVal a.ratioVal
  have htrans : ∀ a b c : RatioEntry, ratioLe a b = true → ratioLe b c = true →
      ratioLe a c = true := by
    intro a b c hab hbc
    simp only [ratioLe, decide_eq_true_eq] at *
    exact le_trans hbc hab
  have hfactPy : ∀ e ∈ findSizeRatioMethods tsD pyD,
      e.tsLength < e.pythonLength
      ∧ e.ratioVal = (e.pythonLength : ℚ) / (e.tsLength : ℚ) := by
    intro e he
    have he2 : e ∈ methodRatiosPy tsD pyD :=
      mem_jsSort.mp (List.Sublist.mem he (List.take_sublist 15 _))
    obtain ⟨c, _, m, _, t, _, hlt, he3⟩ := (memRatiosPy_iff tsD pyD e).mp he2
    subst he3
    exact ⟨hlt, rfl⟩
  have hfactTs : ∀ e ∈ findTsSizeRatioMethods tsD pyD,
      e.pythonLength < e.tsLength
      ∧ e.ratioVal = (e.tsLength : ℚ) / (e.pythonLength : ℚ) := by
    intro e he
    have he2 : e ∈ methodRatiosTs tsD pyD :=
      mem_jsSort.mp (List.Sublist.mem he (List.take_sublist 15 _))
    obtain ⟨c, _, m, _, _, p, _, hlt, he3⟩ := (memRatiosTs_iff tsD pyD e).mp he2
    subst he3
    exact ⟨hlt, rfl⟩
  refine ⟨memRatiosPy_iff tsD pyD, rfl, ?_, ?_, hfactPy, hfactTs, ?_⟩
  · rw [findSizeRatioMethods, List.length_take]
    exact inf_le_left
  · exact ((jsSort_pairwise htot htrans (methodRatiosPy tsD pyD)).sublist
      (List.take_sublist 15 _)).imp
      (fun h => by simpa [ratioLe] using h)
  · rintro e he e2 he2 ⟨_, hp, ht⟩
    have f1 := (hfactPy e he).1
    have f2 := (hfactTs e2 he2).1
    rw [hp, ht] at f1
    omega

/-- C6 amended witness: on the specification's example class, the
membership characterization of the amended statement is applied at the
compute_x pair (Python length 46, TypeScript length 3, ratio 46 thirds),
discharging the class and method membership, the lookup equation and the
strict length inequality by evaluation. -/
theorem sizeRatioLeaderboards_amended_witness :
    ({ methodName := "compute_x", className := "C",
       pythonLength := lineLength (mMethL "compute_x" 5 50),
       tsLength := lineLength (mMethL "computeX" 10 12),
       ratioVal := (lineLength (mMethL "compute_x" 5 50) : ℚ)
         / (lineLength (mMethL "computeX" 10 12) : ℚ) } : RatioEntry)
      ∈ methodRatiosPy ⟨[mCls "C" "f" [mMethL "computeX" 10 12]]⟩
          ⟨[mCls "C" "g" [mMethL "compute_x" 5 50]]⟩ :=
  ((sizeRatioLeaderboards_amended
      ⟨[mCls "C" "f" [mMethL "computeX" 10 12]]⟩
      ⟨[mCls "C" "g" [mMethL "compute_x" 5 50]]⟩).1 _).mpr
    ⟨mCls "C" "g" [mMethL "compute_x" 5 50], by decide,
     mMethL "compute_x" 5 50, by decide,
     mMethL "computeX" 10 12, by decide, by decide, rfl⟩

/-! ## Claim C7: the longest-method leaderboard -/

/-- C7: the longest-method leaderboard scans every method of both SDKs
except TypeScript methods named constructor, computes each line length
through the total fallback chain (effective end line minus effective start
line plus one, a missing or zero endLine or startLine falling back to line
and a missing or zero line falling back to one, so that fully missing line
data yields length one and the computation never fails), sorts descending
by length, and keeps exactly the first fifteen entries of that sort, fewer
when fewer methods exist. -/
theorem findLongestMethods_spec (tsD pyD : SDKData) :
    (∀ e, e ∈ allLengthEntries tsD pyD ↔
      ((∃ c ∈ tsD.classes, ∃ m ∈ c.methods, m.name ≠ "constructor" ∧
          ({ method := m, className := c.name, sdkName := "ts",
             length := lineLength m } : LengthEntry) = e)
        ∨ (∃ c ∈ pyD.classes, ∃ m ∈ c.methods,
            ({ method := m, className := c.name, sdkName := "python",
               length := lineLength m } : LengthEntry) = e)))
    ∧ findLongestMethods tsD pyD = (jsSort entryLenLe (allLengthEntries tsD pyD)).take 15
    ∧ (findLongestMethods tsD pyD).length = min 15 (allLengthEntries tsD pyD).length
    ∧ List.Pairwise (fun a b => b.length ≤ a.length) (findLongestMethods tsD pyD)
    ∧ (∀ e ∈ findLongestMethods tsD pyD, e.length = lineLength e.method)
    ∧ (∀ m : Method, m.startLine = none → m.endLine = none → m.line = none →
        lineLength m = 1) := by
  have hmem : ∀ e, e ∈ allLengthEntries tsD pyD ↔
      ((∃ c ∈ tsD.classes, ∃ m ∈ c.methods, m.name ≠ "constructor" ∧
          ({ method := m, className := c.name, sdkName := "ts",
             length := lineLength m } : LengthEntry) = e)
        ∨ (∃ c ∈ pyD.classes, ∃ m ∈ c.methods,
            ({ method := m, className := c.name, sdkName := "python",
               length := lineLength m } : LengthEntry) = e)) := by
    intro e
    simp only [allLengthEntries, List.mem_append, List.mem_flatMap,
      List.mem_map, List.mem_filter]
    constructor
    · rintro (⟨c, hc, m, ⟨hm, hname⟩, he⟩ | ⟨c, hc, m, hm, he⟩)
      · exact Or.inl ⟨c, hc, m, hm, by simpa using hname, he⟩
      · exact Or.inr ⟨c, hc, m, hm, he⟩
    · rintro (⟨c, hc, m, hm, hname, he⟩ | ⟨c, hc, m, hm, he⟩)
      · exact Or.inl ⟨c, hc, m, ⟨hm, by simpa using hname⟩, he⟩
      · exact Or.inr ⟨c, hc, m, hm, he⟩
  have htot : ∀ a b : LengthEntry, entryLenLe a b = true ∨ entryLenLe b a = true := by
    intro a b
    simpa [entryLenLe] using Int.le_total b.length a.length
  have htrans : ∀ a b c : LengthEntry, entryLenLe a b = true →
      entryLenLe b c = true → entryLenLe a c = true := by
    intro a b c hab hbc
    simp only [entryLenLe, decide_eq_true_eq] at *
    omega
  refine ⟨hmem, rfl, ?_, ?_, ?_, ?_⟩
  · rw [findLongestMethods, List.length_take,
      (jsSort_perm entryLenLe (allLengthEntries tsD pyD)).length_eq]
  · exact ((jsSort_pairwise htot htrans (allLengthEntries tsD pyD)).sublist
      (List.take_sublist 15 _)).imp
      (fun h => by simpa [entryLenLe] using h)
  · intro e he
    have he2 : e ∈ allLengthEntries tsD pyD :=
      mem_jsSort.mp (List.Sublist.mem he (List.take_sublist 15 _))
    rcases (hmem e).mp he2 with ⟨c, _, m, _, _, he3⟩ | ⟨c, _, m, _, he3⟩ <;>
      · subst he3
        rfl
  · intro m h1 h2 h3
    simp [lineLength, orNum, h1, h2, h3]

/-- C7 witness: the leaderboard specification applied at a concrete pair of
datasets, discharging the membership and missing-field hypotheses. -/
theorem findLongestMethods_spec_witness :
    ({ method := mMethL "computeX" 10 12, className := "C", sdkName := "ts",
       length := lineLength (mMethL "computeX" 10 12) } : LengthEntry).length
        = lineLength (mMethL "computeX" 10 12)
    ∧ lineLength (mMeth "x") = 1 :=
  ⟨(findLongestMethods_spec ⟨[mCls "C" "f" [mMethL "computeX" 10 12]]⟩
      ⟨[]⟩).2.2.2.2.1 _ (by decide),
   (findLongestMethods_spec ⟨[]⟩ ⟨[]⟩).2.2.2.2.2 (mMeth "x") rfl rfl rfl⟩

/-! ## Claim C8: idempotence of the normalizer -/

/-- C8: the identifier normalizer is idempotent: for every string, applying
toCamelCase twice gives the same result as applying it once. -/
theorem toCamelCase_idem (s : String) :
    toCamelCase (toCamelCase s) = toCamelCase s := by
  show (⟨camelRepl (camelRepl s.data)⟩ : String) = ⟨camelRepl s.data⟩
  rw [camelRepl_idem]

end SDKComp
